import Mathlib

/-!
Shallow embedding of `gen_lib_tables.py` (KiCad project library-table generator).

Modelling conventions:
* Python `str` values are modelled as `List Char` (sequences of code points).
* `pathlib.Path` values are modelled as lists of path components; every path in
  a filesystem snapshot is absolute (anchored at `/`), so `Path("/a/b")` is
  `⟨[a, b]⟩` and `as_posix` prints `/a/b`.
* The filesystem is a snapshot: a list of nodes (path plus directory flag) in
  OS-walk enumeration order.  `Path.rglob` yields matches in an order the OS
  does not guarantee to be sorted, which the snapshot order represents.
* Python's stable `sorted(xs, key=k)` is modelled by a stable insertion sort;
  for a total preorder on keys a stable sort's output is unique, so any stable
  sort models it exactly.
* Fallible code (`raise` / `try`) is modelled with `Except PyErr`.
-/

abbrev Str := List Char

/-- Python `str.replace(c, r)` for a single-character needle `c`. -/
def replaceChar (c : Char) (r : Str) : Str → Str
  | [] => []
  | a :: s => (if a = c then r else [a]) ++ replaceChar c r s

/-- Python `str.lower()`; `Char.toLower` agrees with Python on ASCII. -/
def strLower (s : Str) : Str := s.map Char.toLower

/-- Python string comparison `s <= t` (lexicographic on code points). -/
def strLe : Str → Str → Bool
  | [], _ => true
  | _ :: _, [] => false
  | a :: s, b :: t => if a < b then true else if b < a then false else strLe s t

/-- Strict version of `strLe`. -/
def strLt (a b : Str) : Bool := strLe a b && decide (a ≠ b)

/-- Python `s.endswith(suf)`. -/
def strEndsWith (suf s : Str) : Bool :=
  decide (suf.length ≤ s.length) && decide (s.drop (s.length - suf.length) = suf)

/-- Helper for `rfindChar`: scan with a running index, remembering the last hit. -/
def rfindCharGo (c : Char) : Str → Nat → Option Nat → Option Nat
  | [], _, best => best
  | a :: rest, i, best => rfindCharGo c rest (i + 1) (if a = c then some i else best)

/-- Python `str.rfind(c)` (as an `Option` instead of `-1`). -/
def rfindChar (c : Char) (s : Str) : Option Nat := rfindCharGo c s 0 none

/-- Python `"\n".join(lines)`. -/
def joinLines : List Str → Str
  | [] => []
  | [s] => s
  | s :: rest => s ++ '\n' :: joinLines rest

/-- Join path components with `/` (no leading separator). -/
def joinSlash : List Str → Str
  | [] => []
  | [s] => s
  | s :: rest => s ++ '/' :: joinSlash rest

/-- Python `s.rstrip("\n")`: drop every trailing newline. -/
def rstripNl (s : Str) : Str :=
  (s.reverse.dropWhile (fun c => decide (c = '\n'))).reverse

/-- Split a relative path string on `/`, dropping empty segments (helper for
the `Path / str` operator). -/
def splitSlashGo : Str → Str → List Str
  | [], acc => if acc = [] then [] else [acc.reverse]
  | c :: rest, acc =>
    if c = '/' then
      (if acc = [] then splitSlashGo rest [] else acc.reverse :: splitSlashGo rest [])
    else splitSlashGo rest (c :: acc)

def splitSlash (s : Str) : List Str := splitSlashGo s []

/-- An absolute filesystem path: the components of `Path`, anchored at `/`. -/
structure FsPath where
  parts : List Str
deriving DecidableEq, Repr

/-- Python `Path.name` (empty for the root `/`). -/
def FsPath.name (p : FsPath) : Str := p.parts.getLast?.getD []

/-- Python `Path.parent`. -/
def FsPath.parent (p : FsPath) : FsPath := ⟨p.parts.dropLast⟩

/-- Python `Path.as_posix()` for an absolute path (`str(Path)` on POSIX). -/
def FsPath.posix (p : FsPath) : Str := '/' :: joinSlash p.parts

/-- Drop a leading run of components: `some rest` when the first list is an
initial segment of the second, `none` otherwise. -/
def dropLead : List Str → List Str → Option (List Str)
  | [], ys => some ys
  | _ :: _, [] => none
  | x :: xs, y :: ys => if x = y then dropLead xs ys else none

/-- Python `p.relative_to(base).as_posix()`: `some` of the relative POSIX
string (`.` when `p = base`), `none` when `relative_to` raises `ValueError`. -/
def relativeToPosix (p base : FsPath) : Option Str :=
  (dropLead base.parts p.parts).map (fun rest => if rest = [] then ['.'] else joinSlash rest)

/-- Python `base / s` for a textual tail: `s` is split on `/`; a leading `/`
makes the result absolute, as in `pathlib`. -/
def pathJoin (base : FsPath) (s : Str) : FsPath :=
  if s.head? = some '/' then ⟨splitSlash s⟩ else ⟨base.parts ++ splitSlash s⟩

/-- One node of the filesystem snapshot. -/
structure FsNode where
  path : FsPath
  isDir : Bool
deriving DecidableEq, Repr

/-- A filesystem snapshot: nodes listed in OS-walk enumeration order. -/
structure Filesystem where
  nodes : List FsNode
deriving DecidableEq, Repr

/-- Python `Path.exists()` against the snapshot. -/
def pathExists (fs : Filesystem) (p : FsPath) : Bool :=
  fs.nodes.any (fun n => decide (n.path = p))

/-- `True` when `p` lies strictly below `base` (at least one component deeper). -/
def underStrict (base p : FsPath) : Bool :=
  match dropLead base.parts p.parts with
  | some (_ :: _) => true
  | _ => false

/-- Python `base.rglob("*" ++ suf)`: every snapshot node strictly below `base`
whose final name component ends with `suf`.  The pattern `rglob(p)` is
`glob("**/" ++ p)`, so a match has at least one relative component and the
base directory itself is never yielded.  Matches keep snapshot (walk) order. -/
def rglobMatch (fs : Filesystem) (base : FsPath) (suf : Str) : List FsNode :=
  fs.nodes.filter (fun n => underStrict base n.path && strEndsWith suf (FsPath.name n.path))

/-- Stable insertion into a key-sorted list: the new element goes before the
first element whose key is not smaller, so equal keys keep insertion order. -/
def insertByKey {α : Type} (key : α → Str) (x : α) : List α → List α
  | [] => [x]
  | y :: ys => if strLe (key x) (key y) then x :: y :: ys else y :: insertByKey key x ys

/-- Python `sorted(l, key)` (stable, ascending by `strLe` on keys). -/
def pySorted {α : Type} (key : α → Str) : List α → List α
  | [] => []
  | x :: xs => insertByKey key x (pySorted key xs)

/-- The sort key used by both generators: `p.as_posix().lower()`. -/
def sortKey (p : FsPath) : Str := strLower p.posix

/-- CPython `PurePath.stem`: name up to its last `.`, unless that dot is the
first or the last character of the name. -/
def pyStem (n : Str) : Str :=
  match rfindChar '.' n with
  | none => n
  | some i => if 0 < i ∧ i + 1 < n.length then n.take i else n

-- String literals of the script.
def KICAD_SYM_EXT : Str := ( ".kicad_sym" : String).data
def PRETTY_EXT : Str := ( ".pretty" : String).data
def SYMBOLS_NAME : Str := ( "symbols" : String).data
def FOOTPRINTS_NAME : Str := ( "footprints" : String).data
def SYM_HEADER : Str := ( "(sym_lib_table\n  (version 7)\n" : String).data
def FP_HEADER : Str := ( "(fp_lib_table\n  (version 7)\n" : String).data
def FOOTER : Str := ( ")\n" : String).data
def KIPRJMOD_LIT : Str := ( "$\x7bKIPRJMOD\x7d/" : String).data
def LIT_NAME_OPEN : Str := ( "  (lib (name \"" : String).data
def LIT_MID : Str := ( "\")(type \"KiCad\")(uri \"" : String).data
def LIT_END : Str := ( "\")(options \"\")(descr \"\"))" : String).data
def SYM_NOTFOUND : Str := ( "Symbols directory not found: " : String).data
def FP_NOTFOUND : Str := ( "Footprints directory not found: " : String).data
def ERROR_LIT : Str := ( "Error: " : String).data
def NOTSUB_LIT : Str := ( " is not in the subpath of " : String).data
def DRYRUN_LIT : Str := ( "[dry-run] would write: " : String).data
def GENERATED_LIT : Str := ( "✔ Generated " : String).data

/-- `kicad_escape` (source lines 49-50): first double every backslash, then
escape every double quote. -/
def kicad_escape (s : Str) : Str :=
  replaceChar '"' ['\\', '"'] (replaceChar '\\' ['\\', '\\'] s)

/-- `make_lib_line` (source lines 53-58). -/
def make_lib_line (nm uri : Str) : Str :=
  LIT_NAME_OPEN ++ kicad_escape nm ++ LIT_MID ++ kicad_escape uri ++ LIT_END

/-- Python `dict` lookup (assoc list keyed left to right). -/
def dget {κ ν : Type} [DecidableEq κ] : List (κ × ν) → κ → Option ν
  | [], _ => none
  | (k', v) :: d, k => if k = k' then some v else dget d k

/-- Python `dict` store: update in place, or append a fresh key. -/
def dset {κ ν : Type} [DecidableEq κ] : List (κ × ν) → κ → ν → List (κ × ν)
  | [], k, v => [(k, v)]
  | (k', v') :: d, k, v => if k = k' then (k', v) :: d else (k', v') :: dset d k v

/-- Python `k in dict`. -/
def dmem {κ ν : Type} [DecidableEq κ] (d : List (κ × ν)) (k : κ) : Bool :=
  (dget d k).isSome

/-- The collision suffix of `make_unique_names` (source lines 78-83): the
parent directory relative to the project root (absolute parent path when the
parent is outside the root), with `/` and `\` replaced by `_`. -/
def mun_suffix (project_root : FsPath) (p : FsPath) : Str :=
  replaceChar '\\' ['_']
    (replaceChar '/' ['_']
      (match relativeToPosix p.parent project_root with
       | some r => r
       | none => (FsPath.parent p).posix))

/-- The loop of `make_unique_names` (source lines 71-85), carrying the
`seen` counter dict and the `result` dict. -/
def mun_go (bf : FsPath → Str) (project_root : FsPath) :
    List FsPath → List (Str × Nat) × List (FsPath × Str) →
    List (Str × Nat) × List (FsPath × Str)
  | [], st => st
  | p :: ps, st =>
    match dget st.1 (bf p) with
    | none => mun_go bf project_root ps (dset st.1 (bf p) 1, dset st.2 p (bf p))
    | some n =>
      mun_go bf project_root ps
        (dset st.1 (bf p) (n + 1), dset st.2 p (bf p ++ '_' :: mun_suffix project_root p))

/-- `make_unique_names` (source lines 61-87): the final `result` dict. -/
def make_unique_names (paths : List FsPath) (base_name_func : FsPath → Str)
    (project_root : FsPath) : List (FsPath × Str) :=
  (mun_go base_name_func project_root paths ([], [])).2

/-- The final `seen` dict of `make_unique_names`. -/
def mun_seen (paths : List FsPath) (base_name_func : FsPath → Str)
    (project_root : FsPath) : List (Str × Nat) :=
  (mun_go base_name_func project_root paths ([], [])).1

/-- Python exceptions raised by the script. -/
inductive PyErr where
  | fileNotFound (msg : Str)
  | valueError (msg : Str)
deriving DecidableEq, Repr

/-- `str(e)` as used by `main`'s `except` clause. -/
def PyErr.message : PyErr → Str
  | .fileNotFound m => m
  | .valueError m => m

/-- `p.relative_to(base).as_posix()` with the `ValueError` made explicit. -/
def relativeToExc (p base : FsPath) : Except PyErr Str :=
  match relativeToPosix p base with
  | some r => .ok r
  | none => .error (.valueError (p.posix ++ NOTSUB_LIT ++ base.posix))

/-- The base name of a symbol library: `p.stem` (source line 96). -/
def sym_base (p : FsPath) : Str := pyStem p.name

/-- The base name of a footprint library (source lines 120-121). -/
def fp_base (p : FsPath) : Str :=
  if strEndsWith PRETTY_EXT p.name then p.name.take (p.name.length - 7) else p.name

/-- Discovery for symbols: `symbols_dir.rglob("*.kicad_sym")` (source line 94),
as paths in walk order (dirs included: the source does not filter files). -/
def symDiscovered (fs : Filesystem) (symbols_dir : FsPath) : List FsPath :=
  (rglobMatch fs symbols_dir KICAD_SYM_EXT).map (·.path)

/-- `sym_files` (source lines 94-95): discovery sorted by the lowercased
POSIX path. -/
def symSorted (fs : Filesystem) (symbols_dir : FsPath) : List FsPath :=
  pySorted sortKey (symDiscovered fs symbols_dir)

/-- Discovery for footprints: `footprints_dir.rglob("*.pretty")` filtered to
directories (source line 115). -/
def fpDiscovered (fs : Filesystem) (footprints_dir : FsPath) : List FsPath :=
  ((rglobMatch fs footprints_dir PRETTY_EXT).filter (·.isDir)).map (·.path)

/-- `pretty_dirs` (source lines 114-117). -/
def fpSorted (fs : Filesystem) (footprints_dir : FsPath) : List FsPath :=
  pySorted sortKey (fpDiscovered fs footprints_dir)

/-- `name_map[p]` — total lookup; the key is always present because every
rendered path is in the list `make_unique_names` processed. -/
def assignedName (nm : List (FsPath × Str)) (p : FsPath) : Str :=
  (dget nm p).getD []

/-- The URI `${KIPRJMOD}/rel` (source lines 102, 129, 135). -/
def kiprjUri (rel : Str) : Str := KIPRJMOD_LIT ++ rel

/-- One iteration of a generator's entry loop (source lines 99-103, 132-136):
look the assigned name up and render the line; `relative_to` may raise. -/
def libEntryLine (project_root : FsPath) (nm : List (FsPath × Str)) (p : FsPath) :
    Except PyErr Str :=
  match relativeToExc p project_root with
  | .error e => .error e
  | .ok rel => .ok (make_lib_line (assignedName nm p) (kiprjUri rel))

/-- Run the entry loop over all paths, stopping at the first raised error. -/
def buildLines (f : FsPath → Except PyErr Str) : List FsPath → Except PyErr (List Str)
  | [] => .ok []
  | p :: ps =>
    match f p with
    | .error e => .error e
    | .ok l =>
      match buildLines f ps with
      | .error e => .error e
      | .ok ls => .ok (l :: ls)

/-- The `lines` list of `generate_sym_lib_table` (source lines 90-105). -/
def sym_lines (fs : Filesystem) (project_root symbols_dir : FsPath) :
    Except PyErr (List Str) :=
  if pathExists fs symbols_dir then
    match buildLines
        (libEntryLine project_root
          (make_unique_names (symSorted fs symbols_dir) sym_base project_root))
        (symSorted fs symbols_dir) with
    | .error e => .error e
    | .ok els => .ok ([rstripNl SYM_HEADER] ++ els ++ [rstripNl FOOTER])
  else .error (.fileNotFound (SYM_NOTFOUND ++ symbols_dir.posix))

/-- `generate_sym_lib_table` (source lines 90-106): `"\n".join(lines) + "\n"`. -/
def generate_sym_lib_table (fs : Filesystem) (project_root symbols_dir : FsPath) :
    Except PyErr Str :=
  match sym_lines fs project_root symbols_dir with
  | .error e => .error e
  | .ok L => .ok (joinLines L ++ ['\n'])

/-- The `lines` list of `generate_fp_lib_table` (source lines 109-138): the
header, then the hard-coded base `"footprints"` entry, then the discovered
entries, then the footer. -/
def fp_lines (fs : Filesystem) (project_root footprints_dir : FsPath) :
    Except PyErr (List Str) :=
  if pathExists fs footprints_dir then
    match relativeToExc footprints_dir project_root with
    | .error e => .error e
    | .ok base_rel =>
      match buildLines
          (libEntryLine project_root
            (make_unique_names (fpSorted fs footprints_dir) fp_base project_root))
          (fpSorted fs footprints_dir) with
      | .error e => .error e
      | .ok els =>
        .ok ([rstripNl FP_HEADER] ++
             [make_lib_line FOOTPRINTS_NAME (kiprjUri base_rel)] ++ els ++
             [rstripNl FOOTER])
  else .error (.fileNotFound (FP_NOTFOUND ++ footprints_dir.posix))

/-- `generate_fp_lib_table` (source lines 109-139). -/
def generate_fp_lib_table (fs : Filesystem) (project_root footprints_dir : FsPath) :
    Except PyErr Str :=
  match fp_lines fs project_root footprints_dir with
  | .error e => .error e
  | .ok L => .ok (joinLines L ++ ['\n'])

/-- The observable outcome of one `main` invocation. -/
structure RunResult where
  exitCode : Nat
  written : List (FsPath × Str)
  stdoutLines : List Str
  stderrLines : List Str
deriving DecidableEq, Repr

/-- `main` (source lines 142-194), with the CLI arguments as parameters:
derive the roots from the script's own location, compute both documents
inside one `try`, and only then write (or preview) both of them. -/
def main_run (fs : Filesystem) (script_path : FsPath) (sym_out fp_out : Str)
    (dry_run : Bool) : RunResult :=
  let submodule_dir := script_path.parent
  let project_root := submodule_dir.parent
  let symbols_dir := pathJoin submodule_dir SYMBOLS_NAME
  let footprints_dir := pathJoin submodule_dir FOOTPRINTS_NAME
  match generate_sym_lib_table fs project_root symbols_dir with
  | .error e => ⟨1, [], [], [ERROR_LIT ++ e.message]⟩
  | .ok sym_content =>
    match generate_fp_lib_table fs project_root footprints_dir with
    | .error e => ⟨1, [], [], [ERROR_LIT ++ e.message]⟩
    | .ok fp_content =>
      let sym_out_path := pathJoin project_root sym_out
      let fp_out_path := pathJoin project_root fp_out
      if dry_run then
        ⟨0, [],
         [],
         [DRYRUN_LIT ++ sym_out_path.posix, sym_content,
          DRYRUN_LIT ++ fp_out_path.posix, fp_content]⟩
      else
        ⟨0, [(sym_out_path, sym_content), (fp_out_path, fp_content)],
         [GENERATED_LIT ++ sym_out_path.posix, GENERATED_LIT ++ fp_out_path.posix],
         []⟩

/-- Prepend a chunk to the first segment of a split result. -/
def consHead (a : Str) : List Str → List Str
  | [] => [a]
  | h :: t => (a ++ h) :: t

/-- Modelled from the spec: "parsing the rendered line back out (splitting on
unescaped quotes)".  Scan left to right; a backslash escapes the following
character; an unescaped `"` starts a new segment. -/
def splitUnescapedQuotes : Str → List Str
  | [] => [[]]
  | a :: rest =>
    if a = '\\' then
      match rest with
      | [] => consHead ['\\'] [[]]
      | c :: rest2 => consHead ['\\', c] (splitUnescapedQuotes rest2)
    else if a = '"' then [] :: splitUnescapedQuotes rest
    else consHead [a] (splitUnescapedQuotes rest)

/-- Modelled from the spec: unescaping a quoted field (the inverse of
`kicad_escape`): a backslash makes the next character literal. -/
def kicad_unescape : Str → Str
  | [] => []
  | a :: rest =>
    if a = '\\' then
      match rest with
      | [] => ['\\']
      | c :: rest2 => c :: kicad_unescape rest2
    else a :: kicad_unescape rest

/-- Modelled from claim C6's words: the comparison the claim asserts —
ascending by the case-insensitive key, ties between case-insensitively equal
keys broken by natural (case-sensitive) string ordering. -/
def c6le (a b : FsPath) : Bool :=
  strLt (sortKey a) (sortKey b) ||
    (decide (sortKey a = sortKey b) && strLe a.posix b.posix)

/-- Insertion sort step for the claimed C6 ordering. -/
def c6Insert (x : FsPath) : List FsPath → List FsPath
  | [] => [x]
  | y :: ys => if c6le x y then x :: y :: ys else y :: c6Insert x ys

/-- The ordering claim C6 asserts the output obeys. -/
def c6Sort : List FsPath → List FsPath
  | [] => []
  | x :: xs => c6Insert x (c6Sort xs)

/-- The assigned names appearing in the symbol document, in document order. -/
def symNames (fs : Filesystem) (project_root symbols_dir : FsPath) : List Str :=
  (symSorted fs symbols_dir).map
    (assignedName (make_unique_names (symSorted fs symbols_dir) sym_base project_root))

/-- The assigned names appearing in the footprint document, in document order:
the hard-coded `"footprints"` base entry first, then the discovered entries. -/
def fpNames (fs : Filesystem) (project_root footprints_dir : FsPath) : List Str :=
  FOOTPRINTS_NAME ::
    (fpSorted fs footprints_dir).map
      (assignedName (make_unique_names (fpSorted fs footprints_dir) fp_base project_root))

-- Concrete inputs used by witnesses and counterexamples.

def wRootP : FsPath := ⟨[['P']]⟩

def wLibDir : FsPath := ⟨[['P'], ['l']]⟩

def wAKS : Str := ( "a.kicad_sym" : String).data

def wSymA : FsPath := ⟨[['P'], SYMBOLS_NAME, wAKS]⟩

def wSymSubA : FsPath := ⟨[['P'], SYMBOLS_NAME, ( "sub" : String).data, wAKS]⟩

def wPathsC1 : List FsPath := [wSymA, wSymSubA]

def wPathsC10 : List FsPath := [⟨[['P'], ['x'], wAKS]⟩, ⟨[['P'], wAKS]⟩]

def wSymDir : FsPath := ⟨[['P'], ['l'], SYMBOLS_NAME]⟩

def wFpDir : FsPath := ⟨[['P'], ['l'], FOOTPRINTS_NAME]⟩

/-- Snapshot for the C2 counterexample: a footprint library literally named
`footprints.pretty` inside the scan root. -/
def fsC2 : Filesystem :=
  ⟨[⟨wFpDir, true⟩, ⟨⟨wFpDir.parts ++ [( "footprints.pretty" : String).data]⟩, true⟩]⟩

/-- Snapshot for the C2 / C7 witnesses: one symbol file, one footprint dir. -/
def fsW2 : Filesystem :=
  ⟨[⟨wSymDir, true⟩, ⟨⟨wSymDir.parts ++ [wAKS]⟩, false⟩,
    ⟨wFpDir, true⟩, ⟨⟨wFpDir.parts ++ [( "b.pretty" : String).data]⟩, true⟩]⟩

/-- Snapshot for the C5 witness: the footprints dir exists, zero `.pretty`. -/
def fsW5 : Filesystem := ⟨[⟨wFpDir, true⟩]⟩

/-- Snapshot for the C7 witness: the symbols dir exists and is empty. -/
def fsW7 : Filesystem := ⟨[⟨wSymDir, true⟩]⟩

/-- The empty snapshot (used by the C4 and C8 witnesses). -/
def fsEmpty : Filesystem := ⟨[]⟩

def wScript : FsPath := ⟨[['P'], ['l'], ['g']]⟩

/-- C6 counterexample paths: same directory, names differing only in case. -/
def pLowerA : FsPath := ⟨[['r'], ['s'], wAKS]⟩

def pUpperA : FsPath := ⟨[['r'], ['s'], ( "A.kicad_sym" : String).data]⟩

def symDirC6 : FsPath := ⟨[['r'], ['s']]⟩

/-- Snapshot for the C6 counterexample: the OS walk yields the lower-case name
first; both paths have the same case-insensitive sort key. -/
def fsC6 : Filesystem := ⟨[⟨pLowerA, false⟩, ⟨pUpperA, false⟩]⟩

def rootC9 : FsPath := ⟨[['r']]⟩

/-- C9 counterexample: the scan root itself is named `f.pretty`. -/
def fpDirC9 : FsPath := ⟨[['r'], ( "f.pretty" : String).data]⟩

def fsC9 : Filesystem := ⟨[⟨fpDirC9, true⟩]⟩

-- The quote-free segments of a rendered library line (used to state the
-- round-trip property for the spec's quote-splitting parser).

def SEG_A : Str := ( "  (lib (name " : String).data

def SEG_B : Str := ( ")(type " : String).data

def SEG_KICAD : Str := ( "KiCad" : String).data

def SEG_C : Str := ( ")(uri " : String).data

def SEG_D : Str := ( ")(options " : String).data

def SEG_E : Str := ( ")(descr " : String).data

def SEG_F : Str := ( "))" : String).data

/-- The footprint lines document of the C5 witness snapshot. -/
def wL5 : List Str :=
  [rstripNl FP_HEADER,
   make_lib_line FOOTPRINTS_NAME (kiprjUri ( "l/footprints" : String).data),
   rstripNl FOOTER]

-- Dictionary lemmas

theorem dget_dset_self {κ ν : Type} [DecidableEq κ] (d : List (κ × ν)) (k : κ) (v : ν) :
    dget (dset d k v) k = some v := by
  induction d with
  | nil => simp [dget, dset]
  | cons e d ih =>
    obtain ⟨k', v'⟩ := e
    by_cases h : k = k'
    · subst h
      simp [dget, dset]
    · simp [dget, dset, h, ih]

theorem dget_dset_ne {κ ν : Type} [DecidableEq κ] (d : List (κ × ν)) (k k₂ : κ) (v : ν)
    (h : k₂ ≠ k) : dget (dset d k v) k₂ = dget d k₂ := by
  induction d with
  | nil => simp [dget, dset, h]
  | cons e d ih =>
    obtain ⟨k', v'⟩ := e
    by_cases hk : k = k'
    · subst hk
      simp [dget, dset, h]
    · by_cases h2 : k₂ = k'
      · subst h2
        simp [dget, dset, hk]
      · simp [dget, dset, hk, h2, ih]

theorem dmem_dset {κ ν : Type} [DecidableEq κ] (d : List (κ × ν)) (k b : κ) (v : ν) :
    dmem (dset d k v) b = (decide (b = k) || dmem d b) := by
  by_cases h : b = k
  · subst h
    simp [dmem, dget_dset_self]
  · simp [dmem, dget_dset_ne d k b v h, h]

-- The `make_unique_names` loop: a processed path's entry is never changed later.

theorem mun_go_frame (bf : FsPath → Str) (root : FsPath) :
    ∀ (ps : List FsPath) (st : List (Str × Nat) × List (FsPath × Str)) (p : FsPath),
      p ∉ ps → dget (mun_go bf root ps st).2 p = dget st.2 p := by
  intro ps
  induction ps with
  | nil => intro st p _; rfl
  | cons q ps ih =>
    intro st p hp
    have hpq : p ≠ q := fun h => hp (h ▸ List.mem_cons_self q ps)
    have hps : p ∉ ps := fun h => hp (List.mem_cons_of_mem _ h)
    cases hq : dget st.1 (bf q) with
    | none =>
      simp only [mun_go, hq]
      rw [ih _ p hps]
      exact dget_dset_ne _ _ _ _ hpq
    | some n =>
      simp only [mun_go, hq]
      rw [ih _ p hps]
      exact dget_dset_ne _ _ _ _ hpq

/-- In a duplicate-free list, the element at position `i` does not occur
earlier. -/
theorem nodup_get_not_mem_take {α : Type} {l : List α} (h : l.Nodup) :
    ∀ (i : Nat) (hi : i < l.length), l.get ⟨i, hi⟩ ∉ l.take i := by
  induction l with
  | nil => intro i hi; simp at hi
  | cons a l ih =>
    intro i hi
    match i with
    | 0 => simp
    | i + 1 =>
      have hlen : i < l.length := Nat.lt_of_succ_lt_succ hi
      have hget : (a :: l).get ⟨i + 1, hi⟩ = l.get ⟨i, hlen⟩ := rfl
      intro hmem
      rw [hget] at hmem
      simp only [List.take_succ_cons, List.mem_cons] at hmem
      rcases hmem with heq | hmem
      · exact (List.nodup_cons.mp h).1 (heq ▸ List.get_mem l i hlen)
      · exact ih (List.nodup_cons.mp h).2 i hlen hmem

/-- Characterization of the loop's `result` dict: entry `i` gets the bare base
name unless its base was already in `seen` or occurs earlier in the list. -/
theorem mun_go_lookup (bf : FsPath → Str) (root : FsPath) :
    ∀ (ps : List FsPath) (st : List (Str × Nat) × List (FsPath × Str))
      (i : Nat) (hi : i < ps.length), ps.Nodup →
      dget (mun_go bf root ps st).2 (ps.get ⟨i, hi⟩) =
        some (if dmem st.1 (bf (ps.get ⟨i, hi⟩)) = true ∨
                  bf (ps.get ⟨i, hi⟩) ∈ (ps.take i).map bf
              then bf (ps.get ⟨i, hi⟩) ++ '_' :: mun_suffix root (ps.get ⟨i, hi⟩)
              else bf (ps.get ⟨i, hi⟩)) := by
  intro ps
  induction ps with
  | nil => intro st i hi; simp at hi
  | cons q ps ih =>
    intro st i hi hnd
    have hq_ps : q ∉ ps := (List.nodup_cons.mp hnd).1
    have hnd' : ps.Nodup := (List.nodup_cons.mp hnd).2
    match i with
    | 0 =>
      have hget0 : (q :: ps).get ⟨0, hi⟩ = q := rfl
      rw [hget0]
      cases hq : dget st.1 (bf q) with
      | none =>
        simp only [mun_go, hq]
        rw [mun_go_frame bf root ps _ q hq_ps]
        have hslot : dget (dset st.1 (bf q) 1, dset st.2 q (bf q)).2 q = some (bf q) :=
          dget_dset_self _ _ _
        rw [hslot, if_neg]
        intro hcond
        rcases hcond with hcond | hcond
        · simp [dmem, hq] at hcond
        · simp at hcond
      | some n =>
        simp only [mun_go, hq]
        rw [mun_go_frame bf root ps _ q hq_ps]
        have hslot : dget (dset st.1 (bf q) (n + 1),
            dset st.2 q (bf q ++ '_' :: mun_suffix root q)).2 q =
            some (bf q ++ '_' :: mun_suffix root q) := dget_dset_self _ _ _
        rw [hslot, if_pos]
        left
        simp [dmem, hq]
    | i + 1 =>
      have hlen : i < ps.length := Nat.lt_of_succ_lt_succ hi
      have hget : (q :: ps).get ⟨i + 1, hi⟩ = ps.get ⟨i, hlen⟩ := rfl
      rw [hget]
      cases hq : dget st.1 (bf q) with
      | none =>
        simp only [mun_go, hq]
        rw [ih _ i hlen hnd']
        congr 1
        apply if_congr _ rfl rfl
        simp only [dmem_dset, Bool.or_eq_true, decide_eq_true_eq,
          List.take_succ_cons, List.map_cons, List.mem_cons]
        tauto
      | some n =>
        simp only [mun_go, hq]
        rw [ih _ i hlen hnd']
        congr 1
        apply if_congr _ rfl rfl
        simp only [dmem_dset, Bool.or_eq_true, decide_eq_true_eq,
          List.take_succ_cons, List.map_cons, List.mem_cons]
        tauto

/-- Characterization of the loop's `seen` dict: each base's counter ends at
its prior value plus the number of processed entries bearing that base. -/
theorem mun_go_seen (bf : FsPath → Str) (root : FsPath) :
    ∀ (ps : List FsPath) (st : List (Str × Nat) × List (FsPath × Str)) (b : Str),
      dget (mun_go bf root ps st).1 b =
        match dget st.1 b with
        | some n => some (n + ps.countP (fun p => decide (bf p = b)))
        | none =>
          if b ∈ ps.map bf then some (ps.countP (fun p => decide (bf p = b)))
          else none := by
  intro ps
  induction ps with
  | nil =>
    intro st b
    cases h : dget st.1 b <;> simp [mun_go, h]
  | cons q ps ih =>
    intro st b
    by_cases hb : b = bf q
    · subst hb
      cases hq : dget st.1 (bf q) with
      | none =>
        simp only [mun_go, hq]
        rw [ih]
        simp [dget_dset_self, hq, List.countP_cons, Nat.add_comm]
      | some n =>
        simp only [mun_go, hq]
        rw [ih]
        simp [dget_dset_self, List.countP_cons]
        omega
    · have hqb : ¬ (bf q = b) := fun h => hb h.symm
      cases hq : dget st.1 (bf q) with
      | none =>
        simp only [mun_go, hq]
        rw [ih]
        rw [dget_dset_ne _ _ _ _ hb]
        cases h2 : dget st.1 b <;> simp [List.countP_cons, hqb, hb]
      | some n =>
        simp only [mun_go, hq]
        rw [ih]
        rw [dget_dset_ne _ _ _ _ hb]
        cases h2 : dget st.1 b <;> simp [List.countP_cons, hqb, hb]

/-- `make_unique_names` assigns entry `i` the bare base name exactly when no
earlier entry bears the same base, and otherwise the suffixed name. -/
theorem mun_lookup (paths : List FsPath) (bf : FsPath → Str) (root : FsPath)
    (hnd : paths.Nodup) (i : Nat) (hi : i < paths.length) :
    dget (make_unique_names paths bf root) (paths.get ⟨i, hi⟩) =
      some (if bf (paths.get ⟨i, hi⟩) ∈ (paths.take i).map bf
            then bf (paths.get ⟨i, hi⟩) ++ '_' :: mun_suffix root (paths.get ⟨i, hi⟩)
            else bf (paths.get ⟨i, hi⟩)) := by
  have h := mun_go_lookup bf root paths ([], []) i hi hnd
  rw [make_unique_names, h]
  congr 1
  apply if_congr _ rfl rfl
  simp [dmem, dget]

/-- The final `seen` dict counts, for each base that occurs, how many entries
bear it (the counter is bumped on both branches of the loop). -/
theorem mun_seen_count (paths : List FsPath) (bf : FsPath → Str) (root : FsPath)
    (b : Str) :
    dget (mun_seen paths bf root) b =
      (if b ∈ paths.map bf then some (paths.countP (fun p => decide (bf p = b)))
       else none) := by
  have h := mun_go_seen bf root paths ([], []) b
  rw [mun_seen, h]
  rfl

/-- With pairwise-distinct base names, every entry keeps its bare base name. -/
theorem mun_lookup_base (paths : List FsPath) (bf : FsPath → Str) (root : FsPath)
    (hnd : paths.Nodup) (hb : (paths.map bf).Nodup) (p : FsPath) (hp : p ∈ paths) :
    dget (make_unique_names paths bf root) p = some (bf p) := by
  obtain ⟨⟨i, hi⟩, rfl⟩ := List.mem_iff_get.mp hp
  rw [mun_lookup paths bf root hnd i hi, if_neg]
  intro hmem
  rw [List.map_take] at hmem
  have hlen : i < (paths.map bf).length := by simpa using hi
  apply nodup_get_not_mem_take hb i hlen
  have hgm : (paths.map bf).get ⟨i, hlen⟩ = bf (paths.get ⟨i, hi⟩) := by
    simp
  rw [hgm]
  exact hmem

-- Lexicographic string comparison: reflexive, total, transitive.

theorem strLe_refl : ∀ s : Str, strLe s s = true
  | [] => rfl
  | a :: s => by simp [strLe, strLe_refl s]

theorem strLe_total : ∀ s t : Str, strLe s t = true ∨ strLe t s = true
  | [], _ => Or.inl rfl
  | _ :: _, [] => Or.inr rfl
  | a :: s, b :: t => by
    rcases lt_trichotomy a b with h | h | h
    · left
      simp [strLe, h]
    · subst h
      rcases strLe_total s t with ht | ht
      · left
        simp [strLe, ht]
      · right
        simp [strLe, ht]
    · right
      simp [strLe, h]

theorem strLe_trans : ∀ {s t u : Str}, strLe s t = true → strLe t u = true →
    strLe s u = true
  | [], _, _, _, _ => rfl
  | _ :: _, [], _, h1, _ => by simp [strLe] at h1
  | _ :: _, _ :: _, [], _, h2 => by simp [strLe] at h2
  | a :: s, b :: t, c :: u, h1, h2 => by
    simp only [strLe] at h1 h2 ⊢
    rcases lt_trichotomy a b with hab | hab | hab
    · rcases lt_trichotomy b c with hbc | hbc | hbc
      · simp [lt_trans hab hbc]
      · subst hbc
        simp [hab]
      · rw [if_neg (asymm hbc), if_pos hbc] at h2
        simp at h2
    · subst hab
      rcases lt_trichotomy a c with hac | hac | hac
      · simp [hac]
      · subst hac
        simp only [lt_self_iff_false, if_false] at h1 h2 ⊢
        exact strLe_trans h1 h2
      · rw [if_neg (asymm hac), if_pos hac] at h2
        simp at h2
    · rw [if_neg (asymm hab), if_pos hab] at h1
      simp at h1

-- Stable insertion sort: membership, permutation, sortedness, stability.

theorem mem_insertByKey {α : Type} (key : α → Str) (x a : α) :
    ∀ l : List α, a ∈ insertByKey key x l ↔ a = x ∨ a ∈ l
  | [] => by simp [insertByKey]
  | y :: ys => by
    by_cases h : strLe (key x) (key y) = true
    · simp only [insertByKey]
      rw [if_pos h]
      simp [List.mem_cons]
    · simp only [insertByKey]
      rw [if_neg h]
      simp only [List.mem_cons, mem_insertByKey key x a ys]
      tauto

theorem insertByKey_perm {α : Type} (key : α → Str) (x : α) :
    ∀ l : List α, List.Perm (insertByKey key x l) (x :: l)
  | [] => List.Perm.refl _
  | y :: ys => by
    by_cases h : strLe (key x) (key y) = true
    · simp only [insertByKey]
      rw [if_pos h]
    · simp only [insertByKey]
      rw [if_neg h]
      exact ((insertByKey_perm key x ys).cons y).trans (List.Perm.swap x y ys)

theorem pySorted_perm {α : Type} (key : α → Str) :
    ∀ l : List α, List.Perm (pySorted key l) l
  | [] => List.Perm.refl _
  | x :: xs =>
    (insertByKey_perm key x (pySorted key xs)).trans ((pySorted_perm key xs).cons x)

theorem pairwise_insertByKey {α : Type} {key : α → Str} (x : α) :
    ∀ l : List α, l.Pairwise (fun a b => strLe (key a) (key b) = true) →
      (insertByKey key x l).Pairwise (fun a b => strLe (key a) (key b) = true) := by
  intro l
  induction l with
  | nil => intro _; simp [insertByKey]
  | cons y ys ih =>
    intro h
    obtain ⟨hy, hys⟩ := List.pairwise_cons.mp h
    by_cases hc : strLe (key x) (key y) = true
    · simp only [insertByKey]
      rw [if_pos hc]
      refine List.pairwise_cons.mpr ⟨?_, h⟩
      intro z hz
      rcases List.mem_cons.mp hz with hzy | hz
      · rw [hzy]
        exact hc
      · exact strLe_trans hc (hy z hz)
    · simp only [insertByKey]
      rw [if_neg hc]
      refine List.pairwise_cons.mpr ⟨?_, ih hys⟩
      intro z hz
      rcases (mem_insertByKey key x z ys).mp hz with hzx | hz
      · rw [hzx]
        rcases strLe_total (key x) (key y) with ht | ht
        · exact absurd ht hc
        · exact ht
      · exact hy z hz

theorem pySorted_pairwise {α : Type} (key : α → Str) :
    ∀ l : List α, (pySorted key l).Pairwise (fun a b => strLe (key a) (key b) = true)
  | [] => List.Pairwise.nil
  | x :: xs => pairwise_insertByKey x (pySorted key xs) (pySorted_pairwise key xs)

theorem filter_insertByKey {α : Type} (key : α → Str) (x : α) (K : Str) :
    ∀ l : List α,
      (insertByKey key x l).filter (fun p => decide (key p = K)) =
        (if key x = K then [x] else []) ++ l.filter (fun p => decide (key p = K))
  | [] => by
    by_cases h : key x = K <;> simp [insertByKey, h]
  | y :: ys => by
    by_cases hc : strLe (key x) (key y) = true
    · simp only [insertByKey]
      rw [if_pos hc]
      by_cases h : key x = K <;> simp [List.filter_cons, h]
    · simp only [insertByKey]
      rw [if_neg hc]
      by_cases hx : key x = K
      · have hyK : ¬ key y = K := by
          intro hyK
          apply hc
          rw [hx, hyK]
          exact strLe_refl K
        simp [List.filter_cons, hx, hyK, filter_insertByKey key x K ys]
      · simp [List.filter_cons, hx, filter_insertByKey key x K ys]

/-- Stability of the modelled `sorted`: the entries bearing any fixed key keep
their original relative order. -/
theorem pySorted_filter {α : Type} (key : α → Str) (K : Str) :
    ∀ l : List α,
      (pySorted key l).filter (fun p => decide (key p = K)) =
        l.filter (fun p => decide (key p = K))
  | [] => rfl
  | x :: xs => by
    simp only [pySorted]
    rw [filter_insertByKey, pySorted_filter key K xs, List.filter_cons]
    by_cases h : key x = K <;> simp [h]

-- Escaping and the spec's quote-splitting parser.

theorem replaceChar_append (c : Char) (r : Str) :
    ∀ x y : Str, replaceChar c r (x ++ y) = replaceChar c r x ++ replaceChar c r y
  | [], _ => rfl
  | a :: x, y => by
    show (if a = c then r else [a]) ++ replaceChar c r (x ++ y) =
      ((if a = c then r else [a]) ++ replaceChar c r x) ++ replaceChar c r y
    rw [replaceChar_append c r x y, List.append_assoc]

theorem esc_cons (a : Char) (s : Str) :
    kicad_escape (a :: s) =
      (if a = '\\' then ['\\', '\\'] else if a = '"' then ['\\', '"'] else [a]) ++
        kicad_escape s := by
  by_cases h1 : a = '\\'
  · subst h1
    simp [kicad_escape, replaceChar, replaceChar_append]
  · by_cases h2 : a = '"'
    · subst h2
      simp [kicad_escape, replaceChar, replaceChar_append]
    · simp [kicad_escape, replaceChar, replaceChar_append, h1, h2]

theorem kuq_bs (c : Char) (r : Str) :
    kicad_unescape ('\\' :: c :: r) = c :: kicad_unescape r := rfl

theorem kuq_cons {a : Char} (h : ¬ a = '\\') (r : Str) :
    kicad_unescape (a :: r) = a :: kicad_unescape r := by
  conv_lhs => rw [kicad_unescape.eq_def]
  simp only []
  rw [if_neg h]

/-- Unescaping inverts `kicad_escape` on every string. -/
theorem kuq_esc : ∀ s : Str, kicad_unescape (kicad_escape s) = s
  | [] => rfl
  | a :: s => by
    rw [esc_cons]
    by_cases h1 : a = '\\'
    · subst h1
      rw [if_pos rfl]
      have he : (['\\', '\\'] : Str) ++ kicad_escape s = '\\' :: '\\' :: kicad_escape s := rfl
      rw [he, kuq_bs, kuq_esc s]
    · by_cases h2 : a = '"'
      · subst h2
        rw [if_neg h1, if_pos rfl]
        have he : (['\\', '"'] : Str) ++ kicad_escape s = '\\' :: '"' :: kicad_escape s := rfl
        rw [he, kuq_bs, kuq_esc s]
      · rw [if_neg h1, if_neg h2]
        have he : ([a] : Str) ++ kicad_escape s = a :: kicad_escape s := rfl
        rw [he, kuq_cons h1, kuq_esc s]

theorem consHead_ne_nil (a : Str) (l : List Str) : consHead a l ≠ [] := by
  cases l <;> simp [consHead]

theorem consHead_nil_of_ne {l : List Str} (h : l ≠ []) : consHead [] l = l := by
  cases l with
  | nil => exact absurd rfl h
  | cons x t => simp [consHead]

theorem consHead_consHead (a b : Str) (l : List Str) :
    consHead a (consHead b l) = consHead (a ++ b) l := by
  cases l <;> simp [consHead]

theorem sq_bs (c : Char) (r : Str) :
    splitUnescapedQuotes ('\\' :: c :: r) = consHead ['\\', c] (splitUnescapedQuotes r) := by
  rw [splitUnescapedQuotes.eq_def]
  exact rfl

theorem sq_quote (r : Str) :
    splitUnescapedQuotes ('"' :: r) = [] :: splitUnescapedQuotes r := by
  rw [splitUnescapedQuotes.eq_def]
  exact rfl

theorem sq_other {a : Char} (h1 : ¬ a = '\\') (h2 : ¬ a = '"') (r : Str) :
    splitUnescapedQuotes (a :: r) = consHead [a] (splitUnescapedQuotes r) := by
  conv_lhs => rw [splitUnescapedQuotes.eq_def]
  simp only []
  rw [if_neg h1, if_neg h2]

theorem sq_ne_nil : ∀ s : Str, splitUnescapedQuotes s ≠ []
  | [] => by decide
  | a :: rest => by
    by_cases h1 : a = '\\'
    · subst h1
      cases rest with
      | nil => decide
      | cons c r2 =>
        rw [sq_bs]
        exact consHead_ne_nil _ _
    · by_cases h2 : a = '"'
      · subst h2
        rw [sq_quote]
        simp
      · rw [sq_other h1 h2]
        exact consHead_ne_nil _ _

/-- Splitting passes over an escaped chunk without opening a new segment. -/
theorem sq_esc : ∀ (s r : Str),
    splitUnescapedQuotes (kicad_escape s ++ r) =
      consHead (kicad_escape s) (splitUnescapedQuotes r)
  | [], r => by
    have he : kicad_escape [] = ([] : Str) := rfl
    rw [he, List.nil_append, consHead_nil_of_ne (sq_ne_nil r)]
  | a :: s, r => by
    rw [esc_cons]
    by_cases h1 : a = '\\'
    · subst h1
      rw [if_pos rfl]
      have he : ((['\\', '\\'] : Str) ++ kicad_escape s) ++ r =
          '\\' :: '\\' :: (kicad_escape s ++ r) := by simp
      rw [he, sq_bs, sq_esc s r, consHead_consHead]
    · by_cases h2 : a = '"'
      · subst h2
        rw [if_neg h1, if_pos rfl]
        have he : ((['\\', '"'] : Str) ++ kicad_escape s) ++ r =
            '\\' :: '"' :: (kicad_escape s ++ r) := by simp
        rw [he, sq_bs, sq_esc s r, consHead_consHead]
      · rw [if_neg h1, if_neg h2]
        have he : (([a] : Str) ++ kicad_escape s) ++ r = a :: (kicad_escape s ++ r) := by simp
        rw [he, sq_other h1 h2, sq_esc s r, consHead_consHead]

/-- Splitting passes over a chunk free of backslashes and quotes. -/
theorem sq_plain : ∀ (a : Str), (∀ c ∈ a, ¬ c = '\\' ∧ ¬ c = '"') → ∀ r : Str,
    splitUnescapedQuotes (a ++ r) = consHead a (splitUnescapedQuotes r)
  | [], _, r => by
    rw [List.nil_append, consHead_nil_of_ne (sq_ne_nil r)]
  | c :: a, h, r => by
    have hc := h c (List.mem_cons_self c a)
    have ha : ∀ x ∈ a, ¬ x = '\\' ∧ ¬ x = '"' :=
      fun x hx => h x (List.mem_cons_of_mem c hx)
    have he : (c :: a) ++ r = c :: (a ++ r) := rfl
    rw [he, sq_other hc.1 hc.2, sq_plain a ha r, consHead_consHead]
    rfl

-- Joining lines.

theorem joinLines_append_last : ∀ (l : List Str) (ys : Str),
    ∃ x : Str, joinLines (l ++ [ys]) = x ++ ys
  | [], ys => ⟨[], rfl⟩
  | s :: l, ys => by
    obtain ⟨x, hx⟩ := joinLines_append_last l ys
    cases l with
    | nil =>
      refine ⟨s ++ ['\n'], ?_⟩
      simp [joinLines]
    | cons t l2 =>
      refine ⟨s ++ '\n' :: x, ?_⟩
      have he : joinLines ((s :: t :: l2) ++ [ys]) =
          s ++ '\n' :: joinLines ((t :: l2) ++ [ys]) := rfl
      rw [he, hx]
      simp

-- Decomposing the literal pieces of a library line around its quotes.

theorem lit_open_eq : LIT_NAME_OPEN = SEG_A ++ ['"'] := by decide

theorem lit_mid_eq :
    LIT_MID = '"' :: (SEG_B ++ '"' :: (SEG_KICAD ++ '"' :: (SEG_C ++ ['"']))) := by decide

theorem lit_end_eq :
    LIT_END = '"' :: (SEG_D ++ '"' :: '"' :: (SEG_E ++ '"' :: '"' :: SEG_F)) := by decide

theorem sq_plain_nil (a : Str) (h : ∀ c ∈ a, ¬ c = '\\' ∧ ¬ c = '"') :
    splitUnescapedQuotes a = [a] := by
  have hs := sq_plain a h []
  rw [List.append_nil] at hs
  have h0 : splitUnescapedQuotes [] = [[]] := by decide
  rw [hs, h0]
  simp [consHead]

/-- Splitting a rendered library line on unescaped quotes yields exactly the
eleven segments, with the escaped name at index 1 and the escaped URI at 5. -/
theorem split_make_lib_line (nameS uriS : Str) :
    splitUnescapedQuotes (make_lib_line nameS uriS) =
      [SEG_A, kicad_escape nameS, SEG_B, SEG_KICAD, SEG_C,
       kicad_escape uriS, SEG_D, [], SEG_E, [], SEG_F] := by
  have hA : ∀ c ∈ SEG_A, ¬ c = '\\' ∧ ¬ c = '"' := by decide
  have hB : ∀ c ∈ SEG_B, ¬ c = '\\' ∧ ¬ c = '"' := by decide
  have hK : ∀ c ∈ SEG_KICAD, ¬ c = '\\' ∧ ¬ c = '"' := by decide
  have hC : ∀ c ∈ SEG_C, ¬ c = '\\' ∧ ¬ c = '"' := by decide
  have hD : ∀ c ∈ SEG_D, ¬ c = '\\' ∧ ¬ c = '"' := by decide
  have hE : ∀ c ∈ SEG_E, ¬ c = '\\' ∧ ¬ c = '"' := by decide
  have hF : ∀ c ∈ SEG_F, ¬ c = '\\' ∧ ¬ c = '"' := by decide
  rw [make_lib_line, lit_open_eq, lit_mid_eq, lit_end_eq]
  simp only [List.append_assoc, List.cons_append, List.singleton_append, List.nil_append]
  rw [sq_plain SEG_A hA, sq_quote, sq_esc, sq_quote, sq_plain SEG_B hB, sq_quote,
      sq_plain SEG_KICAD hK, sq_quote, sq_plain SEG_C hC, sq_quote, sq_esc, sq_quote,
      sq_plain SEG_D hD, sq_quote, sq_quote, sq_plain SEG_E hE, sq_quote, sq_quote,
      sq_plain_nil SEG_F hF]
  simp [consHead]

theorem dropLead_self : ∀ l : List Str, dropLead l l = some []
  | [] => rfl
  | x :: l => by simp [dropLead, dropLead_self l]

theorem rstrip_footer : rstripNl FOOTER = [')'] := by decide

/-- Inversion of a successful `sym_lines`: header, entry lines, footer. -/
theorem sym_lines_ok {fs : Filesystem} {root symbols_dir : FsPath} {L : List Str}
    (h : sym_lines fs root symbols_dir = .ok L) :
    ∃ els, buildLines (libEntryLine root
        (make_unique_names (symSorted fs symbols_dir) sym_base root))
        (symSorted fs symbols_dir) = .ok els ∧
      L = [rstripNl SYM_HEADER] ++ els ++ [rstripNl FOOTER] := by
  simp only [sym_lines] at h
  by_cases hex : pathExists fs symbols_dir
  · rw [if_pos hex] at h
    cases hbl : buildLines (libEntryLine root
        (make_unique_names (symSorted fs symbols_dir) sym_base root))
        (symSorted fs symbols_dir) with
    | error e =>
      rw [hbl] at h
      simp at h
    | ok els =>
      rw [hbl] at h
      simp only [Except.ok.injEq] at h
      exact ⟨els, rfl, h.symm⟩
  · rw [if_neg hex] at h
    simp at h

/-- Inversion of a successful `fp_lines`: header, synthetic base entry, entry
lines, footer. -/
theorem fp_lines_ok {fs : Filesystem} {root footprints_dir : FsPath} {L : List Str}
    (h : fp_lines fs root footprints_dir = .ok L) :
    ∃ base_rel els, relativeToPosix footprints_dir root = some base_rel ∧
      buildLines (libEntryLine root
        (make_unique_names (fpSorted fs footprints_dir) fp_base root))
        (fpSorted fs footprints_dir) = .ok els ∧
      L = [rstripNl FP_HEADER] ++
        [make_lib_line FOOTPRINTS_NAME (kiprjUri base_rel)] ++ els ++
        [rstripNl FOOTER] := by
  simp only [fp_lines] at h
  by_cases hex : pathExists fs footprints_dir
  · rw [if_pos hex] at h
    cases hrel : relativeToExc footprints_dir root with
    | error e =>
      rw [hrel] at h
      simp at h
    | ok base_rel =>
      rw [hrel] at h
      cases hbl : buildLines (libEntryLine root
          (make_unique_names (fpSorted fs footprints_dir) fp_base root))
          (fpSorted fs footprints_dir) with
      | error e =>
        rw [hbl] at h
        simp at h
      | ok els =>
        rw [hbl] at h
        simp only [Except.ok.injEq] at h
        refine ⟨base_rel, els, ?_, rfl, h.symm⟩
        simp only [relativeToExc] at hrel
        cases hrp : relativeToPosix footprints_dir root with
        | none =>
          rw [hrp] at hrel
          simp at hrel
        | some r =>
          rw [hrp] at hrel
          simp only [Except.ok.injEq] at hrel
          rw [hrel]
  · rw [if_neg hex] at h
    simp at h

-- Claim theorems.

/-- Claim C1: name assignment is an ordered fold over the sorted entries: the
first entry bearing a base name is assigned it unmodified; every later entry
with the same base is assigned `base_suffix`, the suffix being the parent
directory relative to the project root (absolute when outside it) with `/`
and `\` replaced by `_`; and the seen-counter of each occurring base ends at
the number of entries bearing it (bumped on both branches). -/
theorem C1_ordered_fold (paths : List FsPath) (bf : FsPath → Str) (root : FsPath)
    (hnd : paths.Nodup) (i : Nat) (hi : i < paths.length) (b : Str) :
    dget (make_unique_names paths bf root) (paths.get ⟨i, hi⟩) =
      some (if bf (paths.get ⟨i, hi⟩) ∈ (paths.take i).map bf
            then bf (paths.get ⟨i, hi⟩) ++ '_' :: mun_suffix root (paths.get ⟨i, hi⟩)
            else bf (paths.get ⟨i, hi⟩)) ∧
    dget (mun_seen paths bf root) b =
      (if b ∈ paths.map bf then some (paths.countP (fun p => decide (bf p = b)))
       else none) :=
  ⟨mun_lookup paths bf root hnd i hi, mun_seen_count paths bf root b⟩

theorem C1_ordered_fold_witness :
    wPathsC1.Nodup ∧
    (dget (make_unique_names wPathsC1 sym_base wRootP) (wPathsC1.get ⟨1, by decide⟩) =
      some (if sym_base (wPathsC1.get ⟨1, by decide⟩) ∈ (wPathsC1.take 1).map sym_base
            then sym_base (wPathsC1.get ⟨1, by decide⟩) ++
              '_' :: mun_suffix wRootP (wPathsC1.get ⟨1, by decide⟩)
            else sym_base (wPathsC1.get ⟨1, by decide⟩)) ∧
     dget (mun_seen wPathsC1 sym_base wRootP) ['a'] =
      (if ['a'] ∈ wPathsC1.map sym_base
       then some (wPathsC1.countP (fun p => decide (sym_base p = ['a'])))
       else none)) :=
  ⟨by decide, C1_ordered_fold wPathsC1 sym_base wRootP (by decide) 1 (by decide) ['a']⟩

/-- Claim C10: when a colliding entry's parent directory is the project root
itself, the parent renders relative to the root as the single character `.`,
so the assigned disambiguated name is `base ++ "_."`. -/
theorem C10_dot_suffix (paths : List FsPath) (bf : FsPath → Str) (root : FsPath)
    (hnd : paths.Nodup) (i : Nat) (hi : i < paths.length)
    (hpar : (paths.get ⟨i, hi⟩).parent = root)
    (hcol : bf (paths.get ⟨i, hi⟩) ∈ (paths.take i).map bf) :
    dget (make_unique_names paths bf root) (paths.get ⟨i, hi⟩) =
      some (bf (paths.get ⟨i, hi⟩) ++ ['_', '.']) := by
  rw [mun_lookup paths bf root hnd i hi, if_pos hcol]
  have hrel : relativeToPosix ((paths.get ⟨i, hi⟩).parent) root = some ['.'] := by
    rw [hpar, relativeToPosix, dropLead_self]
    rfl
  have hsuf : mun_suffix root (paths.get ⟨i, hi⟩) = ['.'] := by
    rw [mun_suffix, hrel]
    rfl
  rw [hsuf]

theorem C10_dot_suffix_witness :
    wPathsC10.Nodup ∧
    (wPathsC10.get ⟨1, by decide⟩).parent = wRootP ∧
    sym_base (wPathsC10.get ⟨1, by decide⟩) ∈ (wPathsC10.take 1).map sym_base ∧
    dget (make_unique_names wPathsC10 sym_base wRootP) (wPathsC10.get ⟨1, by decide⟩) =
      some (sym_base (wPathsC10.get ⟨1, by decide⟩) ++ ['_', '.']) :=
  ⟨by decide, by decide, by decide,
   C10_dot_suffix wPathsC10 sym_base wRootP (by decide) 1 (by decide) (by decide)
     (by decide)⟩

/-- Claim C8: generation is deterministic: on equal filesystem snapshots the
symbol and footprint documents are byte-identical. -/
theorem C8_deterministic (fs1 fs2 : Filesystem) (root sd fd : FsPath) (h : fs1 = fs2) :
    generate_sym_lib_table fs1 root sd = generate_sym_lib_table fs2 root sd ∧
    generate_fp_lib_table fs1 root fd = generate_fp_lib_table fs2 root fd := by
  subst h
  exact ⟨rfl, rfl⟩

theorem C8_deterministic_witness :
    fsEmpty = fsEmpty ∧
    (generate_sym_lib_table fsEmpty wRootP wSymDir =
       generate_sym_lib_table fsEmpty wRootP wSymDir ∧
     generate_fp_lib_table fsEmpty wRootP wFpDir =
       generate_fp_lib_table fsEmpty wRootP wFpDir) :=
  ⟨rfl, C8_deterministic fsEmpty fsEmpty wRootP wSymDir wFpDir rfl⟩

/-- Claim C3: quoted-field escaping (backslashes doubled first, then quotes
escaped) is invertible: splitting the rendered library line on unescaped
quotes yields the escaped name as segment 1 and the escaped URI as segment 5,
and unescaping them recovers the original strings exactly. -/
theorem C3_escape_roundtrip (nameS uriS : Str) :
    splitUnescapedQuotes (make_lib_line nameS uriS) =
      [SEG_A, kicad_escape nameS, SEG_B, SEG_KICAD, SEG_C, kicad_escape uriS,
       SEG_D, [], SEG_E, [], SEG_F] ∧
    ((splitUnescapedQuotes (make_lib_line nameS uriS))[1]?).map kicad_unescape =
      some nameS ∧
    ((splitUnescapedQuotes (make_lib_line nameS uriS))[5]?).map kicad_unescape =
      some uriS := by
  refine ⟨split_make_lib_line nameS uriS, ?_, ?_⟩
  · rw [split_make_lib_line]
    simp [kuq_esc]
  · rw [split_make_lib_line]
    simp [kuq_esc]

/-- Claim C6 (amended): within each document the entries are sorted ascending
by the case-insensitive key of their POSIX absolute path; the comparison is
total and the sort stable, ties between case-insensitively equal keys keeping
discovery enumeration order (not natural case-sensitive order). -/
theorem C6_amended_sorted (fs : Filesystem) (symbols_dir footprints_dir : FsPath) :
    (symSorted fs symbols_dir).Pairwise
      (fun a b => strLe (sortKey a) (sortKey b) = true) ∧
    (∀ K, (symSorted fs symbols_dir).filter (fun p => decide (sortKey p = K)) =
      (symDiscovered fs symbols_dir).filter (fun p => decide (sortKey p = K))) ∧
    List.Perm (symSorted fs symbols_dir) (symDiscovered fs symbols_dir) ∧
    (fpSorted fs footprints_dir).Pairwise
      (fun a b => strLe (sortKey a) (sortKey b) = true) ∧
    (∀ K, (fpSorted fs footprints_dir).filter (fun p => decide (sortKey p = K)) =
      (fpDiscovered fs footprints_dir).filter (fun p => decide (sortKey p = K))) ∧
    List.Perm (fpSorted fs footprints_dir) (fpDiscovered fs footprints_dir) :=
  ⟨pySorted_pairwise sortKey _, fun K => pySorted_filter sortKey K _,
   pySorted_perm sortKey _, pySorted_pairwise sortKey _,
   fun K => pySorted_filter sortKey K _, pySorted_perm sortKey _⟩

/-- Claim C6 counterexample: two discovered paths with equal case-insensitive
keys stay in walk order; the claimed natural (case-sensitive) tie-break would
put the upper-case path first, so the claim's ordering disagrees with the
generated one. -/
theorem C6_counterexample :
    sortKey pLowerA = sortKey pUpperA ∧
    pLowerA ≠ pUpperA ∧
    symSorted fsC6 symDirC6 = [pLowerA, pUpperA] ∧
    c6Sort (symDiscovered fsC6 symDirC6) = [pUpperA, pLowerA] ∧
    symSorted fsC6 symDirC6 ≠ c6Sort (symDiscovered fsC6 symDirC6) :=
  ⟨by decide, by decide, by decide, by decide, by decide⟩

/-- Claim C9 (amended): footprint discovery produces exactly the `.pretty`
directories lying strictly below the scan root; the root itself is never
yielded, even when its own name matches. -/
theorem C9_amended_discovery (fs : Filesystem) (footprints_dir p : FsPath) :
    p ∈ fpSorted fs footprints_dir ↔
      ∃ n : FsNode, n ∈ fs.nodes ∧ n.path = p ∧ n.isDir = true ∧
        underStrict footprints_dir p = true ∧
        strEndsWith PRETTY_EXT (FsPath.name p) = true := by
  rw [fpSorted, (pySorted_perm sortKey (fpDiscovered fs footprints_dir)).mem_iff,
    fpDiscovered, rglobMatch]
  simp only [List.mem_map, List.mem_filter, Bool.and_eq_true]
  constructor
  · rintro ⟨n, ⟨⟨hn, hmatch⟩, hdir⟩, rfl⟩
    exact ⟨n, hn, rfl, hdir, hmatch.1, hmatch.2⟩
  · rintro ⟨n, hn, rfl, hdir, hu, hs⟩
    exact ⟨n, ⟨⟨hn, hu, hs⟩, hdir⟩, rfl⟩

/-- Claim C9 counterexample: a scan root named `f.pretty` matches the suffix
and exists, yet discovery yields nothing below it, and the generated document
holds only the synthetic base entry — the root itself is not included. -/
theorem C9_counterexample :
    strEndsWith PRETTY_EXT (FsPath.name fpDirC9) = true ∧
    pathExists fsC9 fpDirC9 = true ∧
    FsNode.mk fpDirC9 true ∈ fsC9.nodes ∧
    fpSorted fsC9 fpDirC9 = [] ∧
    fp_lines fsC9 rootC9 fpDirC9 =
      .ok [rstripNl FP_HEADER,
           make_lib_line FOOTPRINTS_NAME (kiprjUri ( "f.pretty" : String).data),
           rstripNl FOOTER] :=
  ⟨by decide, by decide, by decide, by decide, rfl⟩

/-- Claim C2 counterexample: a discovered footprint directory named
`footprints.pretty` keeps the bare base name `footprints`, which duplicates
the hard-coded synthetic base entry of the footprint document. -/
theorem C2_counterexample :
    fpNames fsC2 wRootP wFpDir = [FOOTPRINTS_NAME, FOOTPRINTS_NAME] ∧
    ¬ (fpNames fsC2 wRootP wFpDir).Nodup :=
  ⟨by decide, by decide⟩

/-- Claim C2 (amended): when the discovered entries' base names are pairwise
distinct and none equals `footprints`, every assigned name within each output
document is unique. -/
theorem C2_amended_unique_names (fs : Filesystem)
    (root symbols_dir footprints_dir : FsPath)
    (h1 : (symSorted fs symbols_dir).Nodup)
    (h2 : ((symSorted fs symbols_dir).map sym_base).Nodup)
    (h3 : (fpSorted fs footprints_dir).Nodup)
    (h4 : ((fpSorted fs footprints_dir).map fp_base).Nodup)
    (h5 : FOOTPRINTS_NAME ∉ (fpSorted fs footprints_dir).map fp_base) :
    (symNames fs root symbols_dir).Nodup ∧ (fpNames fs root footprints_dir).Nodup := by
  have hsym : symNames fs root symbols_dir = (symSorted fs symbols_dir).map sym_base := by
    rw [symNames]
    apply List.map_congr_left
    intro p hp
    rw [assignedName, mun_lookup_base _ _ _ h1 h2 p hp]
    rfl
  have hfp : (fpSorted fs footprints_dir).map
      (assignedName (make_unique_names (fpSorted fs footprints_dir) fp_base root)) =
      (fpSorted fs footprints_dir).map fp_base := by
    apply List.map_congr_left
    intro p hp
    rw [assignedName, mun_lookup_base _ _ _ h3 h4 p hp]
    rfl
  constructor
  · rw [hsym]
    exact h2
  · rw [fpNames, hfp]
    exact List.nodup_cons.mpr ⟨h5, h4⟩

theorem C2_amended_unique_names_witness :
    (symSorted fsW2 wSymDir).Nodup ∧
    ((symSorted fsW2 wSymDir).map sym_base).Nodup ∧
    (fpSorted fsW2 wFpDir).Nodup ∧
    ((fpSorted fsW2 wFpDir).map fp_base).Nodup ∧
    FOOTPRINTS_NAME ∉ (fpSorted fsW2 wFpDir).map fp_base ∧
    ((symNames fsW2 wRootP wSymDir).Nodup ∧ (fpNames fsW2 wRootP wFpDir).Nodup) :=
  ⟨by decide, by decide, by decide, by decide, by decide,
   C2_amended_unique_names fsW2 wRootP wSymDir wFpDir (by decide) (by decide)
     (by decide) (by decide) (by decide)⟩

/-- Claim C4: a missing scan directory makes generation return a not-found
error naming the directory; `main` catches it once, prints one diagnostic
line, exits with status 1, and writes nothing — in particular, when symbol
generation succeeds but the footprints directory is missing, no file at all
is written, since both documents are computed before either write. -/
theorem C4_missing_dir (fs : Filesystem) (script_path : FsPath) (so fo : Str)
    (dr : Bool) :
    (pathExists fs (pathJoin script_path.parent SYMBOLS_NAME) = false →
      generate_sym_lib_table fs script_path.parent.parent
          (pathJoin script_path.parent SYMBOLS_NAME) =
        .error (.fileNotFound (SYM_NOTFOUND ++
          (pathJoin script_path.parent SYMBOLS_NAME).posix)) ∧
      main_run fs script_path so fo dr =
        ⟨1, [], [], [ERROR_LIT ++ (SYM_NOTFOUND ++
          (pathJoin script_path.parent SYMBOLS_NAME).posix)]⟩) ∧
    (∀ s, generate_sym_lib_table fs script_path.parent.parent
          (pathJoin script_path.parent SYMBOLS_NAME) = .ok s →
      pathExists fs (pathJoin script_path.parent FOOTPRINTS_NAME) = false →
      generate_fp_lib_table fs script_path.parent.parent
          (pathJoin script_path.parent FOOTPRINTS_NAME) =
        .error (.fileNotFound (FP_NOTFOUND ++
          (pathJoin script_path.parent FOOTPRINTS_NAME).posix)) ∧
      main_run fs script_path so fo dr =
        ⟨1, [], [], [ERROR_LIT ++ (FP_NOTFOUND ++
          (pathJoin script_path.parent FOOTPRINTS_NAME).posix)]⟩) := by
  constructor
  · intro h
    have hno : ¬ (pathExists fs (pathJoin script_path.parent SYMBOLS_NAME) = true) := by
      rw [h]
      simp
    have hgen : generate_sym_lib_table fs script_path.parent.parent
        (pathJoin script_path.parent SYMBOLS_NAME) =
        .error (.fileNotFound (SYM_NOTFOUND ++
          (pathJoin script_path.parent SYMBOLS_NAME).posix)) := by
      rw [generate_sym_lib_table, sym_lines, if_neg hno]
    refine ⟨hgen, ?_⟩
    simp only [main_run, hgen]
    rfl
  · intro s hs hfp
    have hno : ¬ (pathExists fs (pathJoin script_path.parent FOOTPRINTS_NAME) = true) := by
      rw [hfp]
      simp
    have hgen2 : generate_fp_lib_table fs script_path.parent.parent
        (pathJoin script_path.parent FOOTPRINTS_NAME) =
        .error (.fileNotFound (FP_NOTFOUND ++
          (pathJoin script_path.parent FOOTPRINTS_NAME).posix)) := by
      rw [generate_fp_lib_table, fp_lines, if_neg hno]
    refine ⟨hgen2, ?_⟩
    simp only [main_run, hs, hgen2]
    rfl

theorem C4_missing_dir_witness :
    pathExists fsEmpty (pathJoin wScript.parent SYMBOLS_NAME) = false ∧
    (generate_sym_lib_table fsEmpty wScript.parent.parent
        (pathJoin wScript.parent SYMBOLS_NAME) =
       .error (.fileNotFound (SYM_NOTFOUND ++
         (pathJoin wScript.parent SYMBOLS_NAME).posix)) ∧
     main_run fsEmpty wScript ['s'] ['f'] false =
       ⟨1, [], [], [ERROR_LIT ++ (SYM_NOTFOUND ++
         (pathJoin wScript.parent SYMBOLS_NAME).posix)]⟩) :=
  ⟨by decide, (C4_missing_dir fsEmpty wScript ['s'] ['f'] false).1 (by decide)⟩

/-- Claim C5: the footprint lines always put the synthetic `"footprints"`
entry (whose URI points at the scan root) directly after the header and
before every discovered entry — also with zero `.pretty` directories; the
symbol lines hold no synthetic entry: between header and footer they are
exactly the discovered entries' lines. -/
theorem C5_synthetic_base (fs : Filesystem) (root symbols_dir footprints_dir : FsPath) :
    (∀ L, fp_lines fs root footprints_dir = .ok L →
      L.take 2 = [rstripNl FP_HEADER,
        make_lib_line FOOTPRINTS_NAME
          (kiprjUri ((relativeToPosix footprints_dir root).getD []))] ∧
      buildLines (libEntryLine root
          (make_unique_names (fpSorted fs footprints_dir) fp_base root))
          (fpSorted fs footprints_dir) = .ok ((L.drop 2).dropLast) ∧
      L.getLast? = some (rstripNl FOOTER)) ∧
    (∀ M, sym_lines fs root symbols_dir = .ok M →
      M.take 1 = [rstripNl SYM_HEADER] ∧
      buildLines (libEntryLine root
          (make_unique_names (symSorted fs symbols_dir) sym_base root))
          (symSorted fs symbols_dir) = .ok ((M.drop 1).dropLast) ∧
      M.getLast? = some (rstripNl FOOTER)) := by
  constructor
  · intro L hL
    obtain ⟨base_rel, els, hrel, hbl, hLeq⟩ := fp_lines_ok hL
    subst hLeq
    rw [hrel]
    refine ⟨by simp, ?_, ?_⟩
    · have hd : (([rstripNl FP_HEADER] ++
          [make_lib_line FOOTPRINTS_NAME (kiprjUri base_rel)] ++ els ++
          [rstripNl FOOTER]).drop 2) = els ++ [rstripNl FOOTER] := by simp
      rw [hd, List.dropLast_concat]
      exact hbl
    · have hc : [rstripNl FP_HEADER] ++
          [make_lib_line FOOTPRINTS_NAME (kiprjUri base_rel)] ++ els ++
          [rstripNl FOOTER] =
          (rstripNl FP_HEADER ::
            make_lib_line FOOTPRINTS_NAME (kiprjUri base_rel) :: els) ++
          [rstripNl FOOTER] := by simp
      rw [hc, List.getLast?_concat]
  · intro M hM
    obtain ⟨els, hbl, hMeq⟩ := sym_lines_ok hM
    subst hMeq
    refine ⟨by simp, ?_, ?_⟩
    · have hd : (([rstripNl SYM_HEADER] ++ els ++ [rstripNl FOOTER]).drop 1) =
          els ++ [rstripNl FOOTER] := by simp
      rw [hd, List.dropLast_concat]
      exact hbl
    · have hc : [rstripNl SYM_HEADER] ++ els ++ [rstripNl FOOTER] =
          (rstripNl SYM_HEADER :: els) ++ [rstripNl FOOTER] := by simp
      rw [hc, List.getLast?_concat]

theorem C5_synthetic_base_witness :
    fp_lines fsW5 wRootP wFpDir = .ok wL5 ∧
    (wL5.take 2 = [rstripNl FP_HEADER,
        make_lib_line FOOTPRINTS_NAME
          (kiprjUri ((relativeToPosix wFpDir wRootP).getD []))] ∧
     buildLines (libEntryLine wRootP
        (make_unique_names (fpSorted fsW5 wFpDir) fp_base wRootP))
        (fpSorted fsW5 wFpDir) = .ok ((wL5.drop 2).dropLast) ∧
     wL5.getLast? = some (rstripNl FOOTER)) :=
  ⟨rfl, (C5_synthetic_base fsW5 wRootP wSymDir wFpDir).1 wL5 rfl⟩

/-- Claim C7: a symbols directory that exists but has no matches yields the
header+footer-only document, and every successfully generated document ends
with exactly one trailing newline. -/
theorem C7_empty_and_newline (fs : Filesystem) (root symbols_dir footprints_dir : FsPath) :
    (pathExists fs symbols_dir = true → symDiscovered fs symbols_dir = [] →
      generate_sym_lib_table fs root symbols_dir = .ok (SYM_HEADER ++ FOOTER)) ∧
    (∀ s, generate_sym_lib_table fs root symbols_dir = .ok s →
      s.getLast? = some '\n' ∧ s.dropLast.getLast? ≠ some '\n') ∧
    (∀ s, generate_fp_lib_table fs root footprints_dir = .ok s →
      s.getLast? = some '\n' ∧ s.dropLast.getLast? ≠ some '\n') := by
  refine ⟨?_, ?_, ?_⟩
  · intro hex hnil
    have hss : symSorted fs symbols_dir = [] := by
      rw [symSorted, hnil]
      rfl
    rw [generate_sym_lib_table, sym_lines, if_pos hex, hss]
    rfl
  · intro s hs
    rw [generate_sym_lib_table] at hs
    cases hsl : sym_lines fs root symbols_dir with
    | error e =>
      rw [hsl] at hs
      simp at hs
    | ok L =>
      rw [hsl] at hs
      simp only [Except.ok.injEq] at hs
      obtain ⟨els, _, hLeq⟩ := sym_lines_ok hsl
      subst hLeq
      obtain ⟨x, hx⟩ := joinLines_append_last (rstripNl SYM_HEADER :: els) (rstripNl FOOTER)
      have hL2 : ([rstripNl SYM_HEADER] ++ els ++ [rstripNl FOOTER]) =
          ((rstripNl SYM_HEADER :: els) ++ [rstripNl FOOTER]) := by simp
      rw [hL2, hx, rstrip_footer] at hs
      subst hs
      constructor
      · rw [List.getLast?_concat]
      · rw [List.dropLast_concat, List.getLast?_concat]
        simp
  · intro s hs
    rw [generate_fp_lib_table] at hs
    cases hsl : fp_lines fs root footprints_dir with
    | error e =>
      rw [hsl] at hs
      simp at hs
    | ok L =>
      rw [hsl] at hs
      simp only [Except.ok.injEq] at hs
      obtain ⟨base_rel, els, _, _, hLeq⟩ := fp_lines_ok hsl
      subst hLeq
      obtain ⟨x, hx⟩ := joinLines_append_last
        (rstripNl FP_HEADER ::
          make_lib_line FOOTPRINTS_NAME (kiprjUri base_rel) :: els)
        (rstripNl FOOTER)
      have hL2 : ([rstripNl FP_HEADER] ++
          [make_lib_line FOOTPRINTS_NAME (kiprjUri base_rel)] ++ els ++
          [rstripNl FOOTER]) =
          ((rstripNl FP_HEADER ::
            make_lib_line FOOTPRINTS_NAME (kiprjUri base_rel) :: els) ++
          [rstripNl FOOTER]) := by simp
      rw [hL2, hx, rstrip_footer] at hs
      subst hs
      constructor
      · rw [List.getLast?_concat]
      · rw [List.dropLast_concat, List.getLast?_concat]
        simp

theorem C7_empty_and_newline_witness :
    pathExists fsW7 wSymDir = true ∧
    symDiscovered fsW7 wSymDir = [] ∧
    generate_sym_lib_table fsW7 wRootP wSymDir = .ok (SYM_HEADER ++ FOOTER) :=
  ⟨by decide, by decide,
   (C7_empty_and_newline fsW7 wRootP wSymDir wFpDir).1 (by decide) (by decide)⟩
